import Mathlib

/-!
Verification of the mortar ballistic computation core.

This file embeds the computational core of the repository (geometry,
ballistic table lookup, PCHIP resampling, dispersion adjustment, solution
aggregation, miss correction) as Lean definitions, and proves the stated
properties about them.

Numeric modelling: the Rust code computes over `f64`.  Functions whose
claims are about exact arithmetic relationships are embedded over a linear
ordered field (instantiated at `ℚ` for executable witnesses and at `ℝ`
where the code uses `sqrt`/`atan2`), i.e. floating point rounding is
idealised away.  A separate small model `Fl` with `NaN`/`±∞` values is
used for the one safety claim whose content is precisely the behaviour of
the partial float comparisons (`partial_cmp(..).unwrap()`).
-/

namespace Mortar

/-- Three-way comparison on a linear order; this is what
`a.partial_cmp(&b).unwrap()` computes in the Rust source when both
arguments are comparable (no NaN involved). -/
def qcmp {K : Type} [LinearOrder K] (a b : K) : Ordering :=
  if a < b then .lt else if b < a then .gt else .eq

theorem qcmp_eq_lt {K : Type} [LinearOrder K] {a b : K} :
    qcmp a b = .lt ↔ a < b := by
  unfold qcmp
  rcases lt_trichotomy a b with h | h | h
  · simp [h, asymm h]
  · simp [h, lt_irrefl]
  · simp [h, asymm h, not_lt_of_gt h]

theorem qcmp_eq_gt {K : Type} [LinearOrder K] {a b : K} :
    qcmp a b = .gt ↔ b < a := by
  unfold qcmp
  rcases lt_trichotomy a b with h | h | h
  · simp [h, asymm h]
  · simp [h, lt_irrefl]
  · simp [h, asymm h, not_lt_of_gt h]

theorem qcmp_eq_eq {K : Type} [LinearOrder K] {a b : K} :
    qcmp a b = .eq ↔ a = b := by
  unfold qcmp
  rcases lt_trichotomy a b with h | h | h
  · simp [h, asymm h, ne_of_lt h]
  · simp [h, lt_irrefl]
  · simp [h, asymm h, not_lt_of_gt h, (ne_of_lt h).symm]

/-- The loop of Rust `slice::binary_search_by`, with explicit fuel (the
loop halves the interval, so `n + 1` units of fuel always suffice).
`c i` is the comparator applied to element `i`; `.error ins` is Rust's
`Err(ins)` insertion point, `.ok i` is `Ok(i)`. -/
def bsLoop (c : Nat → Ordering) : Nat → Nat → Nat → Except Nat Nat
  | 0, left, _right => .error left
  | fuel + 1, left, right =>
    if left < right then
      let mid := left + (right - left) / 2
      match c mid with
      | .lt => bsLoop c fuel (mid + 1) right
      | .eq => .ok mid
      | .gt => bsLoop c fuel left mid
    else .error left

/-- Rust `slice::binary_search_by` over indices `0..n`. -/
def binarySearchBy (c : Nat → Ordering) (n : Nat) : Except Nat Nat :=
  bsLoop c (n + 1) 0 n

/-- Characterisation of the binary-search loop for a comparator that is
monotone on `[0, n)` (which the sorted-table invariant provides). -/
theorem bsLoop_spec {c : Nat → Ordering} {n : Nat}
    (hlt : ∀ i j, i ≤ j → j < n → c j = .lt → c i = .lt)
    (hgt : ∀ i j, i ≤ j → j < n → c i = .gt → c j = .gt) :
    ∀ fuel left right, right - left ≤ fuel → left ≤ right → right ≤ n →
      (∀ j, j < left → c j = .lt) → (∀ j, right ≤ j → j < n → c j = .gt) →
      (∃ i, bsLoop c fuel left right = .ok i ∧ i < n ∧ c i = .eq) ∨
      (∃ ins, bsLoop c fuel left right = .error ins ∧ ins ≤ n ∧
        (∀ j, j < ins → c j = .lt) ∧ (∀ j, ins ≤ j → j < n → c j = .gt)) := by
  intro fuel
  induction fuel with
  | zero =>
    intro left right hfuel hlr hrn hL hR
    right
    refine ⟨left, rfl, by omega, hL, ?_⟩
    intro j hj hjn
    exact hR j (by omega) hjn
  | succ fuel ih =>
    intro left right hfuel hlr hrn hL hR
    by_cases h : left < right
    · have hmid1 : left + (right - left) / 2 < right := by omega
      have hmid2 : left ≤ left + (right - left) / 2 := by omega
      have hmidn : left + (right - left) / 2 < n := by omega
      rcases hc : c (left + (right - left) / 2) with _ | _ | _
      · -- .lt : search right half
        have hres := ih (left + (right - left) / 2 + 1) right (by omega) (by omega) hrn
          (by
            intro j hj
            rcases Nat.lt_succ_iff_lt_or_eq.mp hj with hj' | hj'
            · exact (if hjl : j < left then hL j hjl else
                hlt j (left + (right - left) / 2) (by omega) hmidn hc)
            · exact hj' ▸ hc)
          hR
        have hstep : bsLoop c (fuel + 1) left right =
            bsLoop c fuel (left + (right - left) / 2 + 1) right := by
          simp only [bsLoop, if_pos h, hc]
        rw [hstep]
        exact hres
      · -- .eq : found
        left
        refine ⟨left + (right - left) / 2, ?_, hmidn, hc⟩
        simp only [bsLoop, if_pos h, hc]
      · -- .gt : search left half
        have hres := ih left (left + (right - left) / 2) (by omega) (by omega) (by omega)
          hL
          (by
            intro j hj hjn
            exact hgt (left + (right - left) / 2) j hj hjn hc)
        have hstep : bsLoop c (fuel + 1) left right =
            bsLoop c fuel left (left + (right - left) / 2) := by
          simp only [bsLoop, if_pos h, hc]
        rw [hstep]
        exact hres
    · right
      have hle : left = right := by omega
      refine ⟨left, ?_, by omega, hL, ?_⟩
      · simp only [bsLoop, if_neg h]
      · intro j hj hjn
        exact hR j (by omega) hjn

/-- Specialisation of `bsLoop_spec` to the full range with `n + 1` fuel. -/
theorem binarySearchBy_spec {c : Nat → Ordering} {n : Nat}
    (hlt : ∀ i j, i ≤ j → j < n → c j = .lt → c i = .lt)
    (hgt : ∀ i j, i ≤ j → j < n → c i = .gt → c j = .gt) :
    (∃ i, binarySearchBy c n = .ok i ∧ i < n ∧ c i = .eq) ∨
    (∃ ins, binarySearchBy c n = .error ins ∧ ins ≤ n ∧
      (∀ j, j < ins → c j = .lt) ∧ (∀ j, ins ≤ j → j < n → c j = .gt)) := by
  exact bsLoop_spec hlt hgt (n + 1) 0 n (by omega) (by omega) (by omega)
    (by intro j hj; omega) (by intro j hj hjn; omega)

/-! ## Ballistic tables (`src/lib.rs`, `BallisticPoint` / `BallisticTable`) -/

/-- A data point of a firing table: range (m) mapped to elevation (mil). -/
structure BallisticPoint (K : Type) where
  range_m : K
  elev_mil : K
deriving DecidableEq

/-- A firing table: list of data points, sorted ascending by range. -/
structure BallisticTable (K : Type) where
  points : List (BallisticPoint K)
deriving DecidableEq

/-- Rust `BallisticTable::range_bounds`: `(first range, last range)` when the
table is nonempty. -/
def BallisticTable.range_bounds {K : Type} (t : BallisticTable K) : Option (K × K) :=
  match t.points.head?, t.points.getLast? with
  | some f, some l => some (f.range_m, l.range_m)
  | _, _ => none

/-- Rust `BallisticTable::elev_at`: `None` when fewer than 2 samples or the
query is outside `[min_range, max_range]`; the stored elevation on an
exact hit; linear interpolation between the bracketing samples otherwise.
The source performs the binary search twice with the identical comparator;
the second search necessarily yields the same `Err(ins)` as the first, so
it is expressed here by binding `ins` once. -/
def BallisticTable.elev_at {K : Type} [LinearOrderedField K]
    (t : BallisticTable K) (range_m : K) : Option K :=
  if t.points.length < 2 then none
  else
    match t.range_bounds with
    | none => none
    | some (minr, maxr) =>
      if range_m < minr ∨ maxr < range_m then none
      else
        match binarySearchBy (fun i => qcmp (t.points.getD i ⟨0, 0⟩).range_m range_m)
            t.points.length with
        | .ok i => some (t.points.getD i ⟨0, 0⟩).elev_mil
        | .error ins =>
          let idx := ins - 1
          if t.points.length ≤ idx + 1 then
            match t.points.getLast? with
            | some p => some p.elev_mil
            | none => none
          else
            let p0 := t.points.getD idx ⟨0, 0⟩
            let p1 := t.points.getD (idx + 1) ⟨0, 0⟩
            let tt := (range_m - p0.range_m) / (p1.range_m - p0.range_m)
            some (p0.elev_mil + tt * (p1.elev_mil - p0.elev_mil))

/-! Helper lemmas relating `head?`/`getLast?` to `getD` indexing. -/

theorem head?_eq_some_getD {α : Type} {l : List α} (d : α) (h : l ≠ []) :
    l.head? = some (l.getD 0 d) := by
  rw [List.head?_eq_head h, List.head_eq_getElem,
    List.getD_eq_getElem l d (List.length_pos.mpr h)]

theorem getLast?_eq_some_getD {α : Type} {l : List α} (d : α) (h : l ≠ []) :
    l.getLast? = some (l.getD (l.length - 1) d) := by
  rw [List.getLast?_eq_getLast l h, List.getLast_eq_getElem,
    List.getD_eq_getElem l d (by have := List.length_pos.mpr h; omega)]

theorem getLastD_eq_getD {α : Type} {l : List α} (d : α) (h : l ≠ []) :
    l.getLastD d = l.getD (l.length - 1) d := by
  rw [List.getLastD_eq_getLast?, getLast?_eq_some_getD d h, Option.getD_some]

/-- In a table whose ranges are strictly increasing, indexed ranges are
strictly monotone. -/
theorem table_range_mono {t : BallisticTable ℚ}
    (hs : List.Chain' (· < ·) (t.points.map BallisticPoint.range_m)) :
    ∀ i j, i < j → j < t.points.length →
      (t.points.getD i ⟨0, 0⟩).range_m < (t.points.getD j ⟨0, 0⟩).range_m := by
  intro i j hij hj
  have hi : i < t.points.length := by omega
  have hp := List.chain'_iff_pairwise.mp hs
  rw [List.pairwise_iff_get] at hp
  have hmapi : i < (t.points.map BallisticPoint.range_m).length := by
    simpa using hi
  have hmapj : j < (t.points.map BallisticPoint.range_m).length := by
    simpa using hj
  have h := hp ⟨i, hmapi⟩ ⟨j, hmapj⟩ hij
  simp only [List.get_eq_getElem, List.getElem_map] at h
  rwa [List.getD_eq_getElem _ _ hi, List.getD_eq_getElem _ _ hj]

theorem table_range_mono_le {t : BallisticTable ℚ}
    (hs : List.Chain' (· < ·) (t.points.map BallisticPoint.range_m)) :
    ∀ i j, i ≤ j → j < t.points.length →
      (t.points.getD i ⟨0, 0⟩).range_m ≤ (t.points.getD j ⟨0, 0⟩).range_m := by
  intro i j hij hj
  rcases Nat.lt_or_ge i j with h | h
  · exact le_of_lt (table_range_mono hs i j h hj)
  · have : i = j := by omega
    simp [this]

/-- Claim C1: `elev_at(range_m)` returns `none` exactly when the table has
fewer than 2 samples or `range_m` lies outside `[min_range, max_range]`
(bounds inclusive); on an exact range hit it returns that sample's
elevation exactly; otherwise it returns the linear interpolation
`e0 + (range_m - r0)/(r1 - r0) * (e1 - e0)` between the two bracketing
samples.  Stated for tables satisfying the data-model invariant of
strictly increasing ranges. -/
theorem c1_elev_at_characterization (t : BallisticTable ℚ) (r : ℚ)
    (hs : List.Chain' (· < ·) (t.points.map BallisticPoint.range_m)) :
    (t.elev_at r = none ↔
        t.points.length < 2 ∨ r < (t.points.getD 0 ⟨0, 0⟩).range_m ∨
          (t.points.getLastD ⟨0, 0⟩).range_m < r)
    ∧ (∀ i, i < t.points.length → 2 ≤ t.points.length →
        (t.points.getD i ⟨0, 0⟩).range_m = r →
        t.elev_at r = some (t.points.getD i ⟨0, 0⟩).elev_mil)
    ∧ (2 ≤ t.points.length →
        (t.points.getD 0 ⟨0, 0⟩).range_m ≤ r →
        r ≤ (t.points.getLastD ⟨0, 0⟩).range_m →
        (∀ i, i < t.points.length → (t.points.getD i ⟨0, 0⟩).range_m ≠ r) →
        ∃ i, i + 1 < t.points.length ∧
          (t.points.getD i ⟨0, 0⟩).range_m < r ∧ r < (t.points.getD (i + 1) ⟨0, 0⟩).range_m ∧
          t.elev_at r = some ((t.points.getD i ⟨0, 0⟩).elev_mil +
            (r - (t.points.getD i ⟨0, 0⟩).range_m) /
              ((t.points.getD (i + 1) ⟨0, 0⟩).range_m - (t.points.getD i ⟨0, 0⟩).range_m) *
            ((t.points.getD (i + 1) ⟨0, 0⟩).elev_mil - (t.points.getD i ⟨0, 0⟩).elev_mil))) := by
  by_cases hlen : t.points.length < 2
  · have hnone : t.elev_at r = none := by
      unfold BallisticTable.elev_at
      rw [if_pos hlen]
    refine ⟨by simp [hnone, hlen], ?_, ?_⟩
    · intro i _ h2 _
      omega
    · intro h2
      omega
  · push_neg at hlen
    have hne : t.points ≠ [] := by
      intro h
      rw [h] at hlen
      simp at hlen
    have hLD : t.points.getLastD ⟨0, 0⟩ = t.points.getD (t.points.length - 1) ⟨0, 0⟩ :=
      getLastD_eq_getD _ hne
    have hbounds : t.range_bounds = some ((t.points.getD 0 ⟨0, 0⟩).range_m,
        (t.points.getD (t.points.length - 1) ⟨0, 0⟩).range_m) := by
      unfold BallisticTable.range_bounds
      rw [head?_eq_some_getD ⟨0, 0⟩ hne, getLast?_eq_some_getD ⟨0, 0⟩ hne]
    have hmono := table_range_mono hs
    have hmonole := table_range_mono_le hs
    have hclt : ∀ j, (qcmp (t.points.getD j ⟨0, 0⟩).range_m r = .lt ↔
        (t.points.getD j ⟨0, 0⟩).range_m < r) := fun _ => qcmp_eq_lt
    have hcgt : ∀ j, (qcmp (t.points.getD j ⟨0, 0⟩).range_m r = .gt ↔
        r < (t.points.getD j ⟨0, 0⟩).range_m) := fun _ => qcmp_eq_gt
    have hceq : ∀ j, (qcmp (t.points.getD j ⟨0, 0⟩).range_m r = .eq ↔
        (t.points.getD j ⟨0, 0⟩).range_m = r) := fun _ => qcmp_eq_eq
    have hspec := binarySearchBy_spec
      (c := fun i => qcmp (t.points.getD i ⟨0, 0⟩).range_m r) (n := t.points.length)
      (by
        intro i j hij hj hcj
        exact (hclt i).mpr (lt_of_le_of_lt (hmonole i j hij hj) ((hclt j).mp hcj)))
      (by
        intro i j hij hj hci
        exact (hcgt j).mpr (lt_of_lt_of_le ((hcgt i).mp hci) (hmonole i j hij hj)))
    by_cases hout : r < (t.points.getD 0 ⟨0, 0⟩).range_m ∨
        (t.points.getD (t.points.length - 1) ⟨0, 0⟩).range_m < r
    · have hnone : t.elev_at r = none := by
        unfold BallisticTable.elev_at
        rw [if_neg (Nat.not_lt.mpr hlen), hbounds]
        simp only []
        rw [if_pos hout]
      refine ⟨?_, ?_, ?_⟩
      · rw [hnone, hLD]
        exact iff_of_true rfl (Or.inr hout)
      · intro i hi _ hir
        exfalso
        rcases hout with h | h
        · have := hmonole 0 i (by omega) hi
          rw [hir] at this
          exact absurd h (not_lt.mpr this)
        · have := hmonole i (t.points.length - 1) (by omega) (by omega)
          rw [hir] at this
          exact absurd h (not_lt.mpr this)
      · intro _ hlo hhi _
        exfalso
        rw [hLD] at hhi
        rcases hout with h | h
        · exact absurd hlo (not_le.mpr h)
        · exact absurd hhi (not_le.mpr h)
    · rcases hspec with ⟨i, hok, hin, hceqi⟩ | ⟨ins, herr, _hinsn, hLlt, hRgt⟩
      · -- exact range hit at index i
        have hir : (t.points.getD i ⟨0, 0⟩).range_m = r := (hceq i).mp hceqi
        have helev : t.elev_at r = some (t.points.getD i ⟨0, 0⟩).elev_mil := by
          unfold BallisticTable.elev_at
          rw [if_neg (Nat.not_lt.mpr hlen), hbounds]
          simp only []
          rw [if_neg hout, hok]
        refine ⟨?_, ?_, ?_⟩
        · rw [helev, hLD]
          refine iff_of_false (by simp) ?_
          intro hc
          rcases hc with h | h
          · omega
          · exact hout h
        · intro j hj _ hjr
          have hji : j = i := by
            by_contra hne'
            rcases Nat.lt_or_ge j i with h | h
            · have := hmono j i h hin
              rw [hjr, hir] at this
              exact lt_irrefl _ this
            · have hij : i < j := by omega
              have := hmono i j hij hj
              rw [hjr, hir] at this
              exact lt_irrefl _ this
          rw [hji]
          exact helev
        · intro _ _ _ hnohit
          exact absurd hir (hnohit i hin)
      · -- no exact hit: `Err(ins)` bracket
        have hins1 : 1 ≤ ins := by
          by_contra h
          push_neg at h
          have h0 : (0 : ℕ) < t.points.length := by omega
          have := (hcgt 0).mp (hRgt 0 (by omega) h0)
          exact hout (Or.inl this)
        have hins2 : ins ≤ t.points.length - 1 := by
          by_contra h
          push_neg at h
          have := (hclt (t.points.length - 1)).mp (hLlt (t.points.length - 1) (by omega))
          exact hout (Or.inr this)
        have hlt0 : (t.points.getD (ins - 1) ⟨0, 0⟩).range_m < r :=
          (hclt _).mp (hLlt (ins - 1) (by omega))
        have hgt1 : r < (t.points.getD ins ⟨0, 0⟩).range_m :=
          (hcgt _).mp (hRgt ins (by omega) (by omega))
        have hsucc : ins - 1 + 1 = ins := by omega
        have hcond : ¬ (t.points.length ≤ ins - 1 + 1) := by omega
        have helev : t.elev_at r = some ((t.points.getD (ins - 1) ⟨0, 0⟩).elev_mil +
            (r - (t.points.getD (ins - 1) ⟨0, 0⟩).range_m) /
              ((t.points.getD ins ⟨0, 0⟩).range_m - (t.points.getD (ins - 1) ⟨0, 0⟩).range_m) *
            ((t.points.getD ins ⟨0, 0⟩).elev_mil - (t.points.getD (ins - 1) ⟨0, 0⟩).elev_mil)) := by
          unfold BallisticTable.elev_at
          rw [if_neg (Nat.not_lt.mpr hlen), hbounds]
          simp only []
          rw [if_neg hout, herr]
          simp only []
          rw [if_neg hcond, hsucc]
        refine ⟨?_, ?_, ?_⟩
        · rw [helev, hLD]
          refine iff_of_false (by simp) ?_
          intro hc
          rcases hc with h | h
          · omega
          · exact hout h
        · intro j hj _ hjr
          exfalso
          rcases Nat.lt_or_ge j ins with h | h
          · have := (hclt j).mp (hLlt j h)
            rw [hjr] at this
            exact lt_irrefl _ this
          · have := (hcgt j).mp (hRgt j h hj)
            rw [hjr] at this
            exact lt_irrefl _ this
        · intro _ _ _ _
          refine ⟨ins - 1, by omega, hlt0, ?_, ?_⟩
          · rw [hsucc]
            exact hgt1
          · rw [hsucc]
            exact helev

/-- The example table `{(0,1000),(100,900)}` of the spec. -/
def exTable : BallisticTable ℚ := ⟨[⟨0, 1000⟩, ⟨100, 900⟩]⟩

/-- Witness for claim C1: the characterisation applied to the concrete
example table, together with the spec's example values. -/
theorem c1_elev_at_characterization_witness :
    exTable.elev_at 50 = some 950 ∧ exTable.elev_at 0 = some 1000 ∧
    exTable.elev_at 100 = some 900 ∧ exTable.elev_at (-1) = none ∧
    exTable.elev_at 101 = none := by
  have hs : List.Chain' (· < ·) (exTable.points.map BallisticPoint.range_m) := by
    norm_num [exTable]
  refine ⟨?_, ?_, ?_, ?_, ?_⟩
  · norm_num [exTable, BallisticTable.elev_at, BallisticTable.range_bounds,
      binarySearchBy, bsLoop, qcmp]
  · norm_num [exTable, BallisticTable.elev_at, BallisticTable.range_bounds,
      binarySearchBy, bsLoop, qcmp]
  · norm_num [exTable, BallisticTable.elev_at, BallisticTable.range_bounds,
      binarySearchBy, bsLoop, qcmp]
  · exact (c1_elev_at_characterization exTable (-1) hs).1.mpr
      (Or.inr (Or.inl (by norm_num [exTable])))
  · exact (c1_elev_at_characterization exTable 101 hs).1.mpr
      (Or.inr (Or.inr (by norm_num [exTable])))

/-! ## A float model with special values, for the NaN-safety claim

`Fl` models an `f64` as either NaN, an infinity, or a finite value
(idealised as a rational; signed zero is not distinguished).  Rust's
`partial_cmp` is `Fl.pcmp`, returning `none` when either operand is NaN;
`.unwrap()` on that `none` is a panic, modelled by propagating `none`
through `bsLoopF`/`elev_atF`. -/

inductive Fl where
  | nan : Fl
  | ninf : Fl
  | pinf : Fl
  | fin : ℚ → Fl
deriving DecidableEq

/-- Rust `f64::partial_cmp`: `none` iff either operand is NaN. -/
def Fl.pcmp : Fl → Fl → Option Ordering
  | .nan, _ => none
  | _, .nan => none
  | .ninf, .ninf => some .eq
  | .ninf, _ => some .lt
  | _, .ninf => some .gt
  | .pinf, .pinf => some .eq
  | .pinf, _ => some .gt
  | _, .pinf => some .lt
  | .fin a, .fin b => some (qcmp a b)

/-- Rust `<` on `f64`: false whenever the operands are incomparable. -/
def Fl.blt (a b : Fl) : Bool :=
  match a.pcmp b with
  | some .lt => true
  | _ => false

/-- Rust `>` on `f64`: false whenever the operands are incomparable. -/
def Fl.bgt (a b : Fl) : Bool :=
  match a.pcmp b with
  | some .gt => true
  | _ => false

/-- Rust `f64::is_finite`. -/
def Fl.isFinite : Fl → Bool
  | .fin _ => true
  | _ => false

/-- IEEE-style addition on the model (signed zero not distinguished). -/
def Fl.add : Fl → Fl → Fl
  | .nan, _ => .nan
  | _, .nan => .nan
  | .pinf, .ninf => .nan
  | .ninf, .pinf => .nan
  | .pinf, _ => .pinf
  | _, .pinf => .pinf
  | .ninf, _ => .ninf
  | _, .ninf => .ninf
  | .fin a, .fin b => .fin (a + b)

/-- IEEE-style subtraction on the model. -/
def Fl.sub : Fl → Fl → Fl
  | .nan, _ => .nan
  | _, .nan => .nan
  | .pinf, .pinf => .nan
  | .ninf, .ninf => .nan
  | .pinf, _ => .pinf
  | .ninf, _ => .ninf
  | _, .pinf => .ninf
  | _, .ninf => .pinf
  | .fin a, .fin b => .fin (a - b)

/-- IEEE-style multiplication on the model. -/
def Fl.mul : Fl → Fl → Fl
  | .nan, _ => .nan
  | _, .nan => .nan
  | .pinf, .pinf => .pinf
  | .pinf, .ninf => .ninf
  | .ninf, .pinf => .ninf
  | .ninf, .ninf => .pinf
  | .pinf, .fin b => if b = 0 then .nan else if 0 < b then .pinf else .ninf
  | .fin a, .pinf => if a = 0 then .nan else if 0 < a then .pinf else .ninf
  | .ninf, .fin b => if b = 0 then .nan else if 0 < b then .ninf else .pinf
  | .fin a, .ninf => if a = 0 then .nan else if 0 < a then .ninf else .pinf
  | .fin a, .fin b => .fin (a * b)

/-- IEEE-style division on the model. -/
def Fl.div : Fl → Fl → Fl
  | .nan, _ => .nan
  | _, .nan => .nan
  | .pinf, .pinf => .nan
  | .pinf, .ninf => .nan
  | .ninf, .pinf => .nan
  | .ninf, .ninf => .nan
  | .pinf, .fin b => if 0 ≤ b then .pinf else .ninf
  | .ninf, .fin b => if 0 ≤ b then .ninf else .pinf
  | .fin _, .pinf => .fin 0
  | .fin _, .ninf => .fin 0
  | .fin a, .fin b =>
    if b = 0 then (if a = 0 then .nan else if 0 < a then .pinf else .ninf)
    else .fin (a / b)

/-- The binary-search loop with a partial comparator exactly as the source
uses it: `partial_cmp(..).unwrap()` panics (propagated `none`) when the
comparator returns `none`. -/
def bsLoopF (c : Nat → Option Ordering) : Nat → Nat → Nat → Option (Except Nat Nat)
  | 0, left, _right => some (.error left)
  | fuel + 1, left, right =>
    if left < right then
      let mid := left + (right - left) / 2
      match c mid with
      | none => none
      | some .lt => bsLoopF c fuel (mid + 1) right
      | some .eq => some (.ok mid)
      | some .gt => bsLoopF c fuel left mid
    else some (.error left)

/-- Rust `BallisticTable::elev_at` over the float model, with panic propagation:
the outer `none` is a panic of `partial_cmp(..).unwrap()`. -/
def elev_atF (points : List (BallisticPoint Fl)) (range_m : Fl) : Option (Option Fl) :=
  if points.length < 2 then some none
  else
    match points.head?, points.getLast? with
    | some pf, some pl =>
      if Fl.blt range_m pf.range_m || Fl.bgt range_m pl.range_m then some none
      else
        match bsLoopF (fun i => (points.getD i ⟨.fin 0, .fin 0⟩).range_m.pcmp range_m)
            (points.length + 1) 0 points.length with
        | none => none
        | some (.ok i) => some (some (points.getD i ⟨.fin 0, .fin 0⟩).elev_mil)
        | some (.error ins) =>
          let idx := ins - 1
          if points.length ≤ idx + 1 then
            match points.getLast? with
            | some p => some (some p.elev_mil)
            | none => some none
          else
            let p0 := points.getD idx ⟨.fin 0, .fin 0⟩
            let p1 := points.getD (idx + 1) ⟨.fin 0, .fin 0⟩
            let tt := (range_m.sub p0.range_m).div (p1.range_m.sub p0.range_m)
            some (some (p0.elev_mil.add (tt.mul (p1.elev_mil.sub p0.elev_mil))))
    | _, _ => some none

/-- The comparator is total away from NaN. -/
theorem Fl.pcmp_isSome {a b : Fl} (ha : a ≠ .nan) (hb : b ≠ .nan) :
    ∃ o, a.pcmp b = some o := by
  cases a <;> cases b <;> simp_all [Fl.pcmp]

/-- The search loop cannot panic when the comparator is total on `[0, n)`. -/
theorem bsLoopF_total {c : Nat → Option Ordering} {n : Nat}
    (hc : ∀ i, i < n → c i ≠ none) :
    ∀ fuel left right, right ≤ n →
      ∃ res, bsLoopF c fuel left right = some res := by
  intro fuel
  induction fuel with
  | zero =>
    intro l r _
    exact ⟨.error l, rfl⟩
  | succ fuel ih =>
    intro l r hr
    by_cases h : l < r
    · have hmid : l + (r - l) / 2 < n := by omega
      rcases ho : c (l + (r - l) / 2) with _ | o
      · exact absurd ho (hc _ hmid)
      · rcases o with _ | _ | _
        · obtain ⟨res, hres⟩ := ih (l + (r - l) / 2 + 1) r hr
          refine ⟨res, ?_⟩
          simp only [bsLoopF, if_pos h, ho]
          exact hres
        · refine ⟨.ok (l + (r - l) / 2), ?_⟩
          simp only [bsLoopF, if_pos h, ho]
        · obtain ⟨res, hres⟩ := ih l (l + (r - l) / 2) (by omega)
          refine ⟨res, ?_⟩
          simp only [bsLoopF, if_pos h, ho]
          exact hres
    · exact ⟨.error l, by simp only [bsLoopF, if_neg h]⟩

/-- The example table `{(0,1000),(100,900)}` over the float model. -/
def exPointsF : List (BallisticPoint Fl) := [⟨.fin 0, .fin 1000⟩, ⟨.fin 100, .fin 900⟩]

/-- Counterexample to claim C9: a NaN query on a well formed 2-sample
table slips past the bounds check (both NaN comparisons are false) and
reaches `partial_cmp(..).unwrap()` inside the binary search, which panics
(the outer `none`); `elev_at` is therefore not total over non-finite
queries. -/
theorem c9_nan_query_panics : elev_atF exPointsF Fl.nan = none := by decide

/-- Claim C9 (amended): `elev_at` returns a value (`some`/`none`) without
panicking for every table whose sample ranges are not NaN and every
non-NaN query (infinite queries are rejected by the bounds check); only a
NaN reaching a comparison can panic. -/
theorem c9_elev_at_total_for_non_nan (points : List (BallisticPoint Fl)) (r : Fl)
    (hpts : ∀ p ∈ points, p.range_m ≠ Fl.nan) (hr : r ≠ Fl.nan) :
    ∃ v, elev_atF points r = some v := by
  unfold elev_atF
  by_cases hlen : points.length < 2
  · rw [if_pos hlen]
    exact ⟨none, rfl⟩
  · rw [if_neg hlen]
    have hne : points ≠ [] := by
      intro h
      rw [h] at hlen
      simp at hlen
    rw [head?_eq_some_getD ⟨.fin 0, .fin 0⟩ hne, getLast?_eq_some_getD ⟨.fin 0, .fin 0⟩ hne]
    simp only []
    by_cases hcond : (Fl.blt r (points.getD 0 ⟨.fin 0, .fin 0⟩).range_m ||
        Fl.bgt r (points.getD (points.length - 1) ⟨.fin 0, .fin 0⟩).range_m) = true
    · rw [if_pos hcond]
      exact ⟨none, rfl⟩
    · rw [if_neg hcond]
      have hctotal : ∀ i, i < points.length →
          (fun i => (points.getD i ⟨.fin 0, .fin 0⟩).range_m.pcmp r) i ≠ none := by
        intro i hi
        have hmem : points.getD i ⟨.fin 0, .fin 0⟩ ∈ points := by
          rw [List.getD_eq_getElem _ _ hi]
          exact List.getElem_mem hi
        obtain ⟨o, ho⟩ := Fl.pcmp_isSome (hpts _ hmem) hr
        simp only [ho]
        exact Option.some_ne_none o
      obtain ⟨res, hres⟩ := bsLoopF_total hctotal (points.length + 1) 0 points.length (le_refl _)
      rw [hres]
      rcases res with ins | i
      · simp only []
        by_cases hlast : points.length ≤ ins - 1 + 1
        · rw [if_pos hlast]
          exact ⟨some (points.getD (points.length - 1) ⟨.fin 0, .fin 0⟩).elev_mil, rfl⟩
        · rw [if_neg hlast]
          exact ⟨_, rfl⟩
      · exact ⟨_, rfl⟩

/-- Witness for the amended claim C9: the no-panic theorem applied to the
concrete example table at the finite query 50. -/
theorem c9_elev_at_total_for_non_nan_witness : ∃ v, elev_atF exPointsF (Fl.fin 50) = some v :=
  c9_elev_at_total_for_non_nan exPointsF (Fl.fin 50) (by decide) (by decide)

/-! ## CSV ingestion (`BallisticTable::from_csv`, `smooth_csv::main`)

Both readers share the same core: keep only rows whose two fields are
finite, then sort ascending by range with the partial-order comparator
(total after the filter) using a stable sort.  `from_csv` stops there;
the `smooth_csv` tool additionally walks the sorted list and collapses
duplicate ranges, keeping the last value. -/

/-- The per-row finiteness filter: a parsed row is kept iff both fields
are finite, yielding their exact values. -/
def finPair : Fl × Fl → Option (ℚ × ℚ)
  | (Fl.fin a, Fl.fin b) => some (a, b)
  | _ => none

/-- Filter to finite rows, then stable-sort ascending by range: the core
of `BallisticTable::from_csv` (and the identical read phase of
`smooth_csv::main`). -/
def fromRows (rows : List (Fl × Fl)) : List (ℚ × ℚ) :=
  (rows.filterMap finPair).mergeSort (fun p q => p.1 ≤ q.1)

/-- One step of `smooth_csv::main`'s dedup loop: on a repeated range the
last value overwrites the previous one (`*y.last_mut().unwrap() = ry`),
otherwise the pair is appended. -/
def dedupStep (acc : List ℚ × List ℚ) (p : ℚ × ℚ) : List ℚ × List ℚ :=
  if acc.1.getLast? = some p.1 then (acc.1, acc.2.dropLast ++ [p.2])
  else (acc.1 ++ [p.1], acc.2 ++ [p.2])

/-- The dedup loop of `smooth_csv::main` producing the `x`/`y` vectors. -/
def dedupLastWins (pts : List (ℚ × ℚ)) : List ℚ × List ℚ :=
  pts.foldl dedupStep ([], [])

/-- On the duplicate-range input `{(100,900),(100,950)}` the `from_csv`
core keeps both rows (it never deduplicates). -/
theorem fromRows_dup_example :
    fromRows [(.fin 100, .fin 900), (.fin 100, .fin 950)] = [(100, 900), (100, 950)] := by
  have hf : ([(Fl.fin 100, Fl.fin 900), (Fl.fin 100, Fl.fin 950)]).filterMap finPair
      = [((100 : ℚ), (900 : ℚ)), (100, 950)] := rfl
  unfold fromRows
  rw [hf, List.mergeSort_of_sorted (by decide)]

/-- Counterexample to claim C4: after `from_csv` construction from a CSV
source with a duplicated range, the points sequence still contains both
rows, so it is neither strictly increasing by range nor duplicate-free —
the last-write-wins deduplication is not performed by `from_csv`. -/
theorem c4_from_csv_keeps_duplicate_ranges :
    fromRows [(.fin 100, .fin 900), (.fin 100, .fin 950)] = [(100, 900), (100, 950)] ∧
    ¬ List.Chain' (· < ·)
      ((fromRows [(.fin 100, .fin 900), (.fin 100, .fin 950)]).map Prod.fst) := by
  refine ⟨fromRows_dup_example, ?_⟩
  rw [fromRows_dup_example]
  norm_num [List.chain'_cons]

/-- The dedup loop keeps its accumulated ranges strictly increasing as
long as the remaining input is sorted and not below the accumulator. -/
theorem dedup_aux (rest : List (ℚ × ℚ)) :
    ∀ acc : List ℚ × List ℚ,
      List.Chain' (· < ·) acc.1 →
      (∀ x ∈ acc.1, ∀ p ∈ rest, x ≤ p.1) →
      List.Pairwise (fun p q : ℚ × ℚ => p.1 ≤ q.1) rest →
      List.Chain' (· < ·) (rest.foldl dedupStep acc).1 := by
  induction rest with
  | nil =>
    intro acc hchain _ _
    exact hchain
  | cons p rest ih =>
    intro acc hchain hle hsorted
    rw [List.foldl_cons]
    obtain ⟨hhead, htail⟩ := List.pairwise_cons.mp hsorted
    by_cases h : acc.1.getLast? = some p.1
    · have hstep : dedupStep acc p = (acc.1, acc.2.dropLast ++ [p.2]) := by
        unfold dedupStep
        rw [if_pos h]
      rw [hstep]
      exact ih (acc.1, acc.2.dropLast ++ [p.2]) hchain
        (fun x hx q hq => hle x hx q (List.mem_cons_of_mem _ hq)) htail
    · have hstep : dedupStep acc p = (acc.1 ++ [p.1], acc.2 ++ [p.2]) := by
        unfold dedupStep
        rw [if_neg h]
      rw [hstep]
      refine ih (acc.1 ++ [p.1], acc.2 ++ [p.2]) ?_ ?_ htail
      · rw [List.chain'_append]
        refine ⟨hchain, List.chain'_singleton _, ?_⟩
        intro x hx y hy
        simp only [List.head?_cons, Option.mem_def, Option.some.injEq] at hy
        subst hy
        have hxmem : x ∈ acc.1 := List.mem_of_mem_getLast? hx
        have hxle : x ≤ p.1 := hle x hxmem p (List.mem_cons_self _ _)
        have hxne : x ≠ p.1 := by
          intro hxeq
          rw [Option.mem_def] at hx
          rw [hxeq] at hx
          exact h hx
        exact lt_of_le_of_ne hxle hxne
      · intro x hx q hq
        rcases List.mem_append.mp hx with hx' | hx'
        · exact hle x hx' q (List.mem_cons_of_mem _ hq)
        · simp only [List.mem_singleton] at hx'
          subst hx'
          exact hhead q hq

/-- Specification-side description of the dedup pass: keep the last pair
of each run of adjacent equal ranges. -/
def collapseRuns : List (ℚ × ℚ) → List (ℚ × ℚ)
  | [] => []
  | [p] => [p]
  | p :: q :: rest =>
    if p.1 = q.1 then collapseRuns (q :: rest) else p :: collapseRuns (q :: rest)

/-- The dedup fold, started on an accumulator ending in `a`, appends the
run-collapsed remainder of `a :: rest`. -/
theorem dedup_foldl_collapse (rest : List (ℚ × ℚ)) :
    ∀ (xs ys : List ℚ) (a : ℚ × ℚ),
      rest.foldl dedupStep (xs ++ [a.1], ys ++ [a.2]) =
        (xs ++ (collapseRuns (a :: rest)).map Prod.fst,
         ys ++ (collapseRuns (a :: rest)).map Prod.snd) := by
  induction rest with
  | nil =>
    intro xs ys a
    simp [collapseRuns]
  | cons q rest ih =>
    intro xs ys a
    rw [List.foldl_cons]
    have hstep : dedupStep (xs ++ [a.1], ys ++ [a.2]) q =
        (if a.1 = q.1 then (xs ++ [q.1], ys ++ [q.2])
         else ((xs ++ [a.1]) ++ [q.1], (ys ++ [a.2]) ++ [q.2])) := by
      unfold dedupStep
      simp only [List.getLast?_concat, Option.some.injEq]
      by_cases h : a.1 = q.1
      · rw [if_pos h, if_pos h]
        rw [List.dropLast_concat, h]
      · rw [if_neg h, if_neg h]
    rw [hstep]
    by_cases h : a.1 = q.1
    · rw [if_pos h, ih xs ys q]
      show _ = (xs ++ (collapseRuns (a :: q :: rest)).map Prod.fst,
        ys ++ (collapseRuns (a :: q :: rest)).map Prod.snd)
      rw [show collapseRuns (a :: q :: rest) = collapseRuns (q :: rest) from by
        simp only [collapseRuns]
        rw [if_pos h]]
    · rw [if_neg h, ih (xs ++ [a.1]) (ys ++ [a.2]) q]
      show _ = (xs ++ (collapseRuns (a :: q :: rest)).map Prod.fst,
        ys ++ (collapseRuns (a :: q :: rest)).map Prod.snd)
      rw [show collapseRuns (a :: q :: rest) = a :: collapseRuns (q :: rest) from by
        simp only [collapseRuns]
        rw [if_neg h]]
      simp [List.append_assoc]

/-- The tool's dedup loop computes exactly the run collapse: for each run
of equal (hence, after sorting, adjacent) ranges, the last value read
wins. -/
theorem dedupLastWins_eq_collapseRuns (pts : List (ℚ × ℚ)) :
    dedupLastWins pts =
      ((collapseRuns pts).map Prod.fst, (collapseRuns pts).map Prod.snd) := by
  unfold dedupLastWins
  cases pts with
  | nil => rfl
  | cons p rest =>
    rw [List.foldl_cons]
    have hstep : dedupStep ([], []) p = (([] : List ℚ) ++ [p.1], ([] : List ℚ) ++ [p.2]) := by
      unfold dedupStep
      rw [if_neg (by simp)]
    rw [hstep, dedup_foldl_collapse rest [] [] p]
    simp


/-- Claim C4 (amended): `from_csv` yields only finite pairs (the filter)
sorted weakly ascending by range, with duplicate ranges retained in read
order; the unique-ranges/strictly-increasing form with last-read-wins
semantics is produced by the `smooth_csv` tool's dedup pass over the
sorted list, whose output ranges are strictly increasing for every input
and whose kept pairs are exactly the last pair of each run of equal
ranges (so, after the stable sort, the last-read value wins). -/
theorem c4_from_csv_sorted_and_tool_dedups :
    (∀ rows : List (Fl × Fl),
        List.Pairwise (fun p q : ℚ × ℚ => p.1 ≤ q.1) (fromRows rows) ∧
        (fromRows rows).Perm (rows.filterMap finPair)) ∧
    (∀ rows : List (Fl × Fl), List.Chain' (· < ·) (dedupLastWins (fromRows rows)).1) ∧
    (∀ pts : List (ℚ × ℚ), dedupLastWins pts =
        ((collapseRuns pts).map Prod.fst, (collapseRuns pts).map Prod.snd)) ∧
    dedupLastWins [((100 : ℚ), (900 : ℚ)), (100, 950)] = ([100], [950]) := by
  have hsorted : ∀ rows : List (Fl × Fl),
      List.Pairwise (fun p q : ℚ × ℚ => p.1 ≤ q.1) (fromRows rows) := by
    intro rows
    have h := @List.sorted_mergeSort (ℚ × ℚ)
      (fun p q : ℚ × ℚ => decide (p.1 ≤ q.1))
      (by
        intro a b c hab hbc
        simp only [decide_eq_true_eq] at *
        exact le_trans hab hbc)
      (by
        intro a b
        simp only [Bool.or_eq_true, decide_eq_true_eq]
        exact le_total _ _)
      (rows.filterMap finPair)
    exact h.imp (fun hab => of_decide_eq_true hab)
  refine ⟨?_, ?_, ?_, ?_⟩
  · intro rows
    exact ⟨hsorted rows, List.mergeSort_perm _ _⟩
  · intro rows
    unfold dedupLastWins
    exact dedup_aux (fromRows rows) ([], []) List.chain'_nil
      (by intro x hx; simp at hx) (hsorted rows)
  · exact dedupLastWins_eq_collapseRuns
  · unfold dedupLastWins
    simp only [List.foldl_cons, List.foldl_nil, dedupStep]
    decide

/-! ## PCHIP resampler (`src/pchip.rs`, duplicated in `smooth_csv.rs`)

Loops filling arrays are expressed as maps over index ranges; the final
slope array `[d0] ++ interior ++ [dn]` is the state of `d` after the
source's endpoint writes and interior loop. -/

/-- Rust `f64::signum` restricted to non-NaN values: `+1` for positives and
(positive) zero, `-1` for negatives. -/
def rsignum (q : ℚ) : ℚ := if q < 0 then -1 else 1

/-- The endpoint slope computation of `pchip_slopes` (used for `d[0]` and
`d[n-1]`): one-sided three-point formula, zeroed on sign disagreement
with the adjacent secant, capped at `3 *` that secant when the two
nearest secants disagree in sign and the magnitude exceeds the cap. -/
def endSlope (h0 h1 del0 del1 : ℚ) : ℚ :=
  let draw := ((2 * h0 + h1) * del0 - h0 * del1) / (h0 + h1)
  if rsignum draw ≠ rsignum del0 then 0
  else if rsignum del0 ≠ rsignum del1 ∧ |draw| > 3 * |del0| then 3 * del0
  else draw

/-- The interior slope computation of `pchip_slopes` for index `i`, with
`h_im1 = h[i-1]`, `h_i = h[i]`, `del_im1 = delta[i-1]`, `del_i = delta[i]`. -/
def interiorSlope (h_im1 h_i del_im1 del_i : ℚ) : ℚ :=
  if del_im1 = 0 ∨ del_i = 0 ∨ rsignum del_im1 ≠ rsignum del_i then 0
  else
    let w1 := 2 * h_i + h_im1
    let w2 := h_i + 2 * h_im1
    (w1 + w2) / (w1 / del_im1 + w2 / del_i)

/-- Rust `pchip_slopes` (Fritsch-Carlson).  The source checks `h[i] <= 0`
inside the loop that fills `h` and `delta`, erroring at the first
non-positive gap; functionally the error fires iff some gap is
non-positive, checked here before `delta` is formed. -/
def pchip_slopes (x y : List ℚ) : Except String (List ℚ) :=
  let n := x.length
  if n < 2 then .error "Need at least 2 points"
  else
    let h := (List.range (n - 1)).map (fun i => x.getD (i + 1) 0 - x.getD i 0)
    if h.any (fun hi => hi ≤ 0) then .error "x must be strictly increasing"
    else
      let delta := (List.range (n - 1)).map
        (fun i => (y.getD (i + 1) 0 - y.getD i 0) / h.getD i 0)
      if n = 2 then .ok [delta.getD 0 0, delta.getD 0 0]
      else
        let d0 := endSlope (h.getD 0 0) (h.getD 1 0) (delta.getD 0 0) (delta.getD 1 0)
        let dn := endSlope (h.getD (n - 2) 0) (h.getD (n - 3) 0)
          (delta.getD (n - 2) 0) (delta.getD (n - 3) 0)
        let interior := (List.range (n - 2)).map (fun k =>
          interiorSlope (h.getD k 0) (h.getD (k + 1) 0) (delta.getD k 0) (delta.getD (k + 1) 0))
        .ok ([d0] ++ interior ++ [dn])

/-- The shared cubic-Hermite tail of `pchip_eval` (both the bracketing
branches fall through to it with their segment index `i`). -/
def hermiteAt (x y d : List ℚ) (xq : ℚ) (i : Nat) : Except String ℚ :=
  let h := x.getD (i + 1) 0 - x.getD i 0
  let t := (xq - x.getD i 0) / h
  let h00 := (1 + 2 * t) * (1 - t) * (1 - t)
  let h10 := t * (1 - t) * (1 - t)
  let h01 := t * t * (3 - 2 * t)
  let h11 := t * t * (t - 1)
  .ok (h00 * y.getD i 0 + h10 * h * d.getD i 0 +
    h01 * y.getD (i + 1) 0 + h11 * h * d.getD (i + 1) 0)

/-- Rust `pchip_eval`: out-of-bounds queries fail; an exact hit on the last
point returns the stored value; otherwise the bracketing segment is
located by binary search and the cubic Hermite basis is evaluated. -/
def pchip_eval (x y d : List ℚ) (xq : ℚ) : Except String ℚ :=
  let n := x.length
  if xq < x.getD 0 0 ∨ x.getD (n - 1) 0 < xq then .error "Query out of bounds"
  else
    match binarySearchBy (fun i => qcmp (x.getD i 0) xq) n with
    | .ok idx =>
      if idx = n - 1 then .ok (y.getD (n - 1) 0)
      else hermiteAt x y d xq idx
    | .error ins => hermiteAt x y d xq (ins - 1)

/-- The spec-side range gap `h[i]` of segment `i`. -/
def gap (x : List ℚ) (i : Nat) : ℚ := x.getD (i + 1) 0 - x.getD i 0

/-- The spec-side secant slope `delta[i]` of segment `i`. -/
def secant (x y : List ℚ) (i : Nat) : ℚ :=
  (y.getD (i + 1) 0 - y.getD i 0) / gap x i

theorem getD_map_range (f : Nat → ℚ) (n i : Nat) (hi : i < n) :
    ((List.range n).map f).getD i 0 = f i := by
  rw [List.getD_eq_getElem _ _ (by simpa using hi), List.getElem_map, List.getElem_range]

/-- The loop's gap check fails (some `h[i] <= 0`) exactly when the input
is not strictly increasing. -/
theorem any_gap_nonpos_iff (x : List ℚ) :
    ((List.range (x.length - 1)).map (fun i => x.getD (i + 1) 0 - x.getD i 0)).any
      (fun hi => hi ≤ 0) = true ↔ ¬ List.Chain' (· < ·) x := by
  rw [List.chain'_iff_get]
  simp only [List.any_eq_true, List.mem_map, List.mem_range, decide_eq_true_eq]
  constructor
  · rintro ⟨v, ⟨i, hi, rfl⟩, hle⟩ hall
    have h := hall i hi
    rw [List.get_eq_getElem, List.get_eq_getElem] at h
    rw [List.getD_eq_getElem _ _ (by omega), List.getD_eq_getElem _ _ (by omega)] at hle
    simp only at h hle
    linarith
  · intro hnot
    by_contra hno
    push_neg at hno
    apply hnot
    intro i hi
    have h := hno (x.getD (i + 1) 0 - x.getD i 0) ⟨i, hi, rfl⟩
    rw [List.getD_eq_getElem _ _ (by omega), List.getD_eq_getElem _ _ (by omega)] at h
    rw [List.get_eq_getElem, List.get_eq_getElem]
    linarith

/-- Claim C5: `pchip_slopes` fails exactly when fewer than 2 points are
supplied or the x values are not strictly increasing, `pchip_eval` fails
exactly when the query lies outside `[x[0], x[n-1]]`, and the three
failure messages are pairwise distinct. -/
theorem c5_failure_conditions :
    (∀ x y : List ℚ,
        ((∃ e, pchip_slopes x y = .error e) ↔ x.length < 2 ∨ ¬ List.Chain' (· < ·) x) ∧
        (pchip_slopes x y = .error "Need at least 2 points" ↔ x.length < 2) ∧
        (pchip_slopes x y = .error "x must be strictly increasing" ↔
          2 ≤ x.length ∧ ¬ List.Chain' (· < ·) x)) ∧
    (∀ (x y d : List ℚ) (xq : ℚ), x ≠ [] →
        ((∃ e, pchip_eval x y d xq = .error e) ↔
          xq < x.getD 0 0 ∨ x.getD (x.length - 1) 0 < xq) ∧
        (∀ e, pchip_eval x y d xq = .error e → e = "Query out of bounds")) ∧
    ("Need at least 2 points" ≠ "x must be strictly increasing" ∧
     "Need at least 2 points" ≠ "Query out of bounds" ∧
     "x must be strictly increasing" ≠ "Query out of bounds") := by
  have hslopes : ∀ x y : List ℚ,
      (x.length < 2 → pchip_slopes x y = .error "Need at least 2 points") ∧
      (2 ≤ x.length → ¬ List.Chain' (· < ·) x →
        pchip_slopes x y = .error "x must be strictly increasing") ∧
      (2 ≤ x.length → List.Chain' (· < ·) x → ∃ dres, pchip_slopes x y = .ok dres) := by
    intro x y
    refine ⟨?_, ?_, ?_⟩
    · intro h
      unfold pchip_slopes
      rw [if_pos h]
    · intro h2 hmono
      unfold pchip_slopes
      rw [if_neg (by omega)]
      simp only []
      rw [if_pos ((any_gap_nonpos_iff x).mpr hmono)]
    · intro h2 hmono
      unfold pchip_slopes
      rw [if_neg (by omega)]
      have hany : ((List.range (x.length - 1)).map
          (fun i => x.getD (i + 1) 0 - x.getD i 0)).any (fun hi => hi ≤ 0) = false := by
        rw [← Bool.not_eq_true]
        intro hc
        exact (any_gap_nonpos_iff x).mp hc hmono
      simp only []
      rw [hany]
      simp only [Bool.false_eq_true, if_false]
      by_cases hn2 : x.length = 2
      · rw [if_pos hn2]
        exact ⟨_, rfl⟩
      · rw [if_neg hn2]
        exact ⟨_, rfl⟩
  refine ⟨?_, ?_, by refine ⟨by decide, by decide, by decide⟩⟩
  · intro x y
    obtain ⟨hlt, hnm, hok⟩ := hslopes x y
    by_cases h2 : x.length < 2
    · refine ⟨?_, ?_, ?_⟩
      · exact iff_of_true ⟨_, hlt h2⟩ (Or.inl h2)
      · exact iff_of_true (hlt h2) h2
      · refine iff_of_false ?_ (by omega)
        rw [hlt h2]
        intro hc
        have : "Need at least 2 points" = "x must be strictly increasing" :=
          Except.error.inj hc
        exact absurd this (by decide)
    · push_neg at h2
      by_cases hmono : List.Chain' (· < ·) x
      · obtain ⟨dres, hok'⟩ := hok h2 hmono
        refine ⟨?_, ?_, ?_⟩
        · refine iff_of_false ?_ (by simp [hmono]; omega)
          rintro ⟨e, he⟩
          rw [he] at hok'
          exact Except.noConfusion hok'
        · refine iff_of_false ?_ (by omega)
          intro he
          rw [he] at hok'
          exact Except.noConfusion hok'
        · refine iff_of_false ?_ (by tauto)
          intro he
          rw [he] at hok'
          exact Except.noConfusion hok'
      · have herr := hnm h2 hmono
        refine ⟨?_, ?_, ?_⟩
        · exact iff_of_true ⟨_, herr⟩ (Or.inr hmono)
        · refine iff_of_false ?_ (by omega)
          rw [herr]
          intro hc
          have := Except.error.inj hc
          exact absurd this (by decide)
        · exact iff_of_true herr ⟨h2, hmono⟩
  · intro x y d xq hne
    by_cases hout : xq < x.getD 0 0 ∨ x.getD (x.length - 1) 0 < xq
    · have herr : pchip_eval x y d xq = .error "Query out of bounds" := by
        unfold pchip_eval
        rw [if_pos hout]
      refine ⟨iff_of_true ⟨_, herr⟩ hout, ?_⟩
      intro e he
      rw [herr] at he
      exact (Except.error.inj he).symm
    · have hok : ∀ e, pchip_eval x y d xq ≠ .error e := by
        unfold pchip_eval
        rw [if_neg hout]
        rcases binarySearchBy (fun i => qcmp (x.getD i 0) xq) x.length with ins | idx
        · simp only []
          unfold hermiteAt
          intro e
          simp
        · simp only []
          by_cases hidx : idx = x.length - 1
          · rw [if_pos hidx]
            intro e
            simp
          · rw [if_neg hidx]
            unfold hermiteAt
            intro e
            simp
      refine ⟨iff_of_false ?_ hout, ?_⟩
      · rintro ⟨e, he⟩
        exact hok e he
      · intro e he
        exact absurd he (hok e)


/-- Witness for claim C5: the eval failure condition applied to the
concrete table `x = [0, 100]` at the out-of-range query 150. -/
theorem c5_failure_conditions_witness :
    ∃ e, pchip_eval [0, 100] [5, 7] [1, 1] 150 = .error e :=
  ((c5_failure_conditions.2.1 [0, 100] [5, 7] [1, 1] 150 (by decide)).1).mpr
    (Or.inr (by decide))

/-- Claim C3: for inputs with at least 2 points and strictly increasing
x, `pchip_slopes` returns the Fritsch-Carlson slopes: both equal to the
single secant when `n = 2`; each interior slope zero on sign change or a
zero adjacent secant and otherwise the weighted harmonic mean
`(w1+w2)/(w1/delta[i-1] + w2/delta[i])`; each endpoint slope the
one-sided three-point formula, zeroed on sign disagreement with the
adjacent secant and capped at exactly `3 *` that secant. -/
theorem c3_pchip_slopes_fritsch_carlson (x y : List ℚ) (h2 : 2 ≤ x.length) (hmono : List.Chain' (· < ·) x) :
    ∃ d, pchip_slopes x y = .ok d ∧ d.length = x.length ∧
      (x.length = 2 → d = [secant x y 0, secant x y 0]) ∧
      (∀ i, 1 ≤ i → i ≤ x.length - 2 →
        d.getD i 0 =
          if secant x y (i - 1) = 0 ∨ secant x y i = 0 ∨
              rsignum (secant x y (i - 1)) ≠ rsignum (secant x y i) then 0
          else
            ((2 * gap x i + gap x (i - 1)) + (gap x i + 2 * gap x (i - 1))) /
              ((2 * gap x i + gap x (i - 1)) / secant x y (i - 1) +
               (gap x i + 2 * gap x (i - 1)) / secant x y i)) ∧
      (3 ≤ x.length →
        d.getD 0 0 =
          (let draw := ((2 * gap x 0 + gap x 1) * secant x y 0 - gap x 0 * secant x y 1) /
              (gap x 0 + gap x 1)
           if rsignum draw ≠ rsignum (secant x y 0) then 0
           else if rsignum (secant x y 0) ≠ rsignum (secant x y 1) ∧
               |draw| > 3 * |secant x y 0| then 3 * secant x y 0
           else draw) ∧
        d.getD (x.length - 1) 0 =
          (let draw := ((2 * gap x (x.length - 2) + gap x (x.length - 3)) *
                secant x y (x.length - 2) -
              gap x (x.length - 2) * secant x y (x.length - 3)) /
              (gap x (x.length - 2) + gap x (x.length - 3))
           if rsignum draw ≠ rsignum (secant x y (x.length - 2)) then 0
           else if rsignum (secant x y (x.length - 2)) ≠ rsignum (secant x y (x.length - 3)) ∧
               |draw| > 3 * |secant x y (x.length - 2)| then 3 * secant x y (x.length - 2)
           else draw)) := by
  have hany : ((List.range (x.length - 1)).map
      (fun i => x.getD (i + 1) 0 - x.getD i 0)).any (fun hi => hi ≤ 0) = false := by
    rw [← Bool.not_eq_true]
    intro hc
    exact (any_gap_nonpos_iff x).mp hc hmono
  have hh : ∀ j, j < x.length - 1 →
      ((List.range (x.length - 1)).map (fun i => x.getD (i + 1) 0 - x.getD i 0)).getD j 0
        = gap x j := by
    intro j hj
    rw [getD_map_range _ _ _ hj]
    rfl
  have hd : ∀ j, j < x.length - 1 →
      ((List.range (x.length - 1)).map (fun i => (y.getD (i + 1) 0 - y.getD i 0) /
        ((List.range (x.length - 1)).map
          (fun i => x.getD (i + 1) 0 - x.getD i 0)).getD i 0)).getD j 0
        = secant x y j := by
    intro j hj
    rw [getD_map_range _ _ _ hj, hh j hj]
    rfl
  unfold pchip_slopes
  rw [if_neg (by omega)]
  simp only []
  rw [hany]
  simp only [Bool.false_eq_true, if_false]
  by_cases hn2 : x.length = 2
  · rw [if_pos hn2]
    refine ⟨_, rfl, ?_, ?_, ?_, ?_⟩
    · simp [hn2]
    · intro _
      rw [hd 0 (by omega)]
    · intro i h1 hi2
      omega
    · intro h3
      omega
  · rw [if_neg hn2]
    have h3 : 3 ≤ x.length := by omega
    refine ⟨_, rfl, ?_, ?_, ?_, ?_⟩
    · simp only [List.length_append, List.length_map, List.length_range, List.length_cons,
        List.length_nil]
      omega
    · intro h
      exact absurd h hn2
    · intro i h1 hi2
      obtain ⟨k, rfl⟩ : ∃ k, i = k + 1 := ⟨i - 1, by omega⟩
      rw [List.getD_append _ _ _ _ (by
        simp only [List.length_append, List.length_map, List.length_range, List.length_cons,
          List.length_nil]
        omega)]
      rw [List.singleton_append, List.getD_cons_succ]
      rw [getD_map_range _ _ _ (by omega : k < x.length - 2)]
      rw [hh k (by omega), hh (k + 1) (by omega), hd k (by omega), hd (k + 1) (by omega)]
      unfold interiorSlope
      simp only [Nat.add_sub_cancel]
    · intro _
      constructor
      · rw [List.getD_append _ _ _ _ (by
          simp only [List.length_append, List.length_map, List.length_range, List.length_cons,
            List.length_nil]
          omega)]
        rw [List.singleton_append, List.getD_cons_zero]
        rw [hh 0 (by omega), hh 1 (by omega), hd 0 (by omega), hd 1 (by omega)]
        unfold endSlope
        rfl
      · rw [List.getD_append_right _ _ _ _ (by
          simp only [List.length_append, List.length_map, List.length_range, List.length_cons,
            List.length_nil]
          omega)]
        simp only [List.length_append, List.length_map, List.length_range, List.length_cons,
          List.length_nil]
        have : x.length - 1 - (1 + (x.length - 2)) = 0 := by omega
        rw [this, List.getD_cons_zero]
        rw [hh (x.length - 2) (by omega), hh (x.length - 3) (by omega),
          hd (x.length - 2) (by omega), hd (x.length - 3) (by omega)]
        unfold endSlope
        rfl


/-- Witness for claim C3: the slope characterisation applied to the
concrete input `x = [0,1,3]`, `y = [0,2,2]`. -/
theorem c3_pchip_slopes_fritsch_carlson_witness :
    ∃ d, pchip_slopes [0, 1, 3] [0, 2, 2] = .ok d ∧ d.length = 3 := by
  obtain ⟨d, hok, hlen, -, -, -⟩ := c3_pchip_slopes_fritsch_carlson [0, 1, 3] [0, 2, 2]
    (by norm_num) (by norm_num [List.chain'_cons])
  exact ⟨d, hok, hlen⟩

/-! ## Ammunition and target kinds, positions (`src/lib.rs`)

Rust `String` values (names, map keys) are modelled as `List Char`, the
sequence of unicode scalar values, so that suffix tests and key lookups
are executable. -/

/-- The four projectile kinds. -/
inductive AmmoKind where
  | Practice : AmmoKind
  | He : AmmoKind
  | Smoke : AmmoKind
  | Flare : AmmoKind
deriving DecidableEq

/-- Rust `AmmoKind::as_str`: the canonical display name. -/
def AmmoKind.as_str : AmmoKind → List Char
  | .Practice => "PRACTICE".data
  | .He => "HE".data
  | .Smoke => "SMOKE".data
  | .Flare => "FLARE".data

/-- Rust `AmmoKind::all`, in source order. -/
def AmmoKind.all : List AmmoKind := [.Practice, .He, .Smoke, .Flare]

/-- The three tactical target classes. -/
inductive TargetType where
  | Infanterie : TargetType
  | Vehicule : TargetType
  | Soutien : TargetType
deriving DecidableEq

/-- Rust `TargetType::as_str`. -/
def TargetType.as_str : TargetType → List Char
  | .Infanterie => "INFANTERIE".data
  | .Vehicule => "VEHICULE".data
  | .Soutien => "SOUTIEN".data

/-- Rust `TargetType::suggested_ammo`: the fixed advisory mapping. -/
def TargetType.suggested_ammo : TargetType → AmmoKind
  | .Infanterie => .He
  | .Vehicule => .He
  | .Soutien => .Smoke

/-- A generic named position. -/
structure Position (K : Type) where
  name : List Char
  elevation : K
  x : K
  y : K

/-- A mortar position with its loaded ammunition. -/
structure MortarPosition (K : Type) where
  name : List Char
  elevation : K
  x : K
  y : K
  ammo_type : AmmoKind

/-- A target position with its tactical class. -/
structure TargetPosition (K : Type) where
  name : List Char
  elevation : K
  x : K
  y : K
  target_type : TargetType

/-- Rust `MortarPosition::as_position`. -/
def MortarPosition.as_position {K : Type} (m : MortarPosition K) : Position K :=
  ⟨m.name, m.elevation, m.x, m.y⟩

/-- Rust `TargetPosition::as_position`. -/
def TargetPosition.as_position {K : Type} (t : TargetPosition K) : Position K :=
  ⟨t.name, t.elevation, t.x, t.y⟩

/-- Rust `calculate_dispersion`: +5% per metre of positive altitude delta,
-1% per metre of negative delta, no clamping. -/
def calculate_dispersion {K : Type} [LinearOrderedField K]
    (base_dispersion mortar_elevation target_elevation : K) : K :=
  let delta := mortar_elevation - target_elevation
  let factor := if delta ≥ 0 then 1 + delta * (5 / 100) else 1 + delta * (1 / 100)
  base_dispersion * factor

/-! ## Geometry (`Position::distance_to` / `azimuth_to`), over `ℝ` -/

/-- Rust `f64::to_degrees`. -/
noncomputable def toDegrees (r : ℝ) : ℝ := r * (180 / Real.pi)

/-- Rust `f64::atan2` (`y.atan2(x)`), on the reals: the angle of the point
`(x, y)` in `(-pi, pi]`. -/
noncomputable def atan2 (y x : ℝ) : ℝ :=
  if 0 < x then Real.arctan (y / x)
  else if x < 0 then
    (if 0 ≤ y then Real.arctan (y / x) + Real.pi else Real.arctan (y / x) - Real.pi)
  else
    (if 0 < y then Real.pi / 2 else if y < 0 then -(Real.pi / 2) else 0)

/-- Rust `Position::distance_to`: planar Euclidean distance. -/
noncomputable def Position.distance_to (a other : Position ℝ) : ℝ :=
  let dx := a.x - other.x
  let dy := a.y - other.y
  Real.sqrt (dx * dx + dy * dy)

/-- Rust `Position::elevation_difference`: absolute altitude delta. -/
def Position.elevation_difference (a other : Position ℝ) : ℝ :=
  |a.elevation - other.elevation|

/-- Rust `Position::azimuth_to`: clockwise bearing from north in degrees,
wrapped into `[0, 360)` by adding 360 to a negative result. -/
noncomputable def Position.azimuth_to (a other : Position ℝ) : ℝ :=
  let dy := other.y - a.y
  let dx := other.x - a.x
  let azimuth := toDegrees (atan2 dx dy)
  if azimuth < 0 then azimuth + 360 else azimuth

/-- Rust `apply_correction`: subtract the observed deviation from the target
coordinates, carry altitude and classification over, and suffix the name
with `_C` unless it already ends in `_C`. -/
def apply_correction {K : Type} [LinearOrderedField K]
    (target : TargetPosition K) (vertical_m horizontal_m : K) : TargetPosition K :=
  let corrected_x := target.x - horizontal_m
  let corrected_y := target.y - vertical_m
  let corrected_name :=
    if ("_C".data).isSuffixOf target.name then target.name
    else target.name ++ "_C".data
  ⟨corrected_name, target.elevation, corrected_x, corrected_y, target.target_type⟩

/-- Claim C6: `calculate_dispersion(base, me, te)` is `base * (1 + delta*0.05)`
for `delta = me - te >= 0` and `base * (1 + delta*0.01)` for negative
`delta`, with no clamping (zero at `delta = -100`, negative beyond), and
the two spec examples hold exactly: 48.75 and 35.1. -/
theorem c6_calculate_dispersion :
    (∀ base me te : ℚ, calculate_dispersion base me te =
        (if me - te ≥ 0 then base * (1 + (me - te) * (5 / 100))
         else base * (1 + (me - te) * (1 / 100)))) ∧
    calculate_dispersion (39 : ℚ) 105 100 = 4875 / 100 ∧
    calculate_dispersion (39 : ℚ) 90 100 = 351 / 10 ∧
    calculate_dispersion (39 : ℚ) 0 100 = 0 ∧
    calculate_dispersion (39 : ℚ) 0 200 < 0 := by
  refine ⟨?_, ?_, ?_, ?_, ?_⟩
  · intro base me te
    unfold calculate_dispersion
    simp only []
    by_cases h : me - te ≥ 0
    · rw [if_pos h, if_pos h]
    · rw [if_neg h, if_neg h]
  · norm_num [calculate_dispersion]
  · norm_num [calculate_dispersion]
  · norm_num [calculate_dispersion]
  · norm_num [calculate_dispersion]

/-- Claim C7: `apply_correction` subtracts the deviations from the
coordinates (`x - horizontal`, `y - vertical`), keeps altitude and
classification, appends `_C` to the name unless it already ends in `_C`
(so a second correction keeps the same name), and the spec example
`T1 -> T1_C, x 470, y 350` holds. -/
theorem c7_apply_correction :
    (∀ (t : TargetPosition ℚ) (v h : ℚ),
        (apply_correction t v h).x = t.x - h ∧
        (apply_correction t v h).y = t.y - v ∧
        (apply_correction t v h).elevation = t.elevation ∧
        (apply_correction t v h).target_type = t.target_type ∧
        (apply_correction t v h).name =
          (if ("_C".data).isSuffixOf t.name then t.name else t.name ++ "_C".data)) ∧
    (∀ (t : TargetPosition ℚ) (v h v' h' : ℚ),
        (apply_correction (apply_correction t v h) v' h').name =
          (apply_correction t v h).name) ∧
    ((apply_correction (⟨"T1".data, 100, 500, 300, .Infanterie⟩ : TargetPosition ℚ)
        (-50) 30).name = "T1_C".data ∧
     (apply_correction (⟨"T1".data, 100, 500, 300, .Infanterie⟩ : TargetPosition ℚ)
        (-50) 30).x = 470 ∧
     (apply_correction (⟨"T1".data, 100, 500, 300, .Infanterie⟩ : TargetPosition ℚ)
        (-50) 30).y = 350) := by
  have hsuf : ∀ s : List Char, ("_C".data).isSuffixOf (s ++ "_C".data) = true := by
    intro s
    simp [List.isSuffixOf, List.reverse_append]
  refine ⟨?_, ?_, ?_, ?_, ?_⟩
  · intro t v h
    exact ⟨rfl, rfl, rfl, rfl, rfl⟩
  · intro t v h v' h'
    show (if ("_C".data).isSuffixOf (apply_correction t v h).name then
        (apply_correction t v h).name
      else (apply_correction t v h).name ++ "_C".data) = (apply_correction t v h).name
    by_cases hsc : ("_C".data).isSuffixOf t.name
    · have hname : (apply_correction t v h).name = t.name := by
        show (if ("_C".data).isSuffixOf t.name then t.name else t.name ++ "_C".data) = t.name
        rw [if_pos hsc]
      rw [hname, if_pos hsc]
    · have hname : (apply_correction t v h).name = t.name ++ "_C".data := by
        show (if ("_C".data).isSuffixOf t.name then t.name else t.name ++ "_C".data)
          = t.name ++ "_C".data
        rw [if_neg hsc]
      rw [hname, if_pos (hsuf t.name)]
  · decide
  · norm_num [apply_correction]
  · norm_num [apply_correction]


/-- The modelled `atan2` always lies in `(-pi, pi]`. -/
theorem atan2_bounds (y x : ℝ) : -Real.pi < atan2 y x ∧ atan2 y x ≤ Real.pi := by
  have hpi := Real.pi_pos
  have h1 := Real.arctan_lt_pi_div_two (y / x)
  have h2 := Real.neg_pi_div_two_lt_arctan (y / x)
  unfold atan2
  by_cases hx : 0 < x
  · rw [if_pos hx]
    constructor <;> linarith
  · rw [if_neg hx]
    by_cases hx' : x < 0
    · rw [if_pos hx']
      by_cases hy : 0 ≤ y
      · rw [if_pos hy]
        have hdiv : y / x ≤ 0 := div_nonpos_of_nonneg_of_nonpos hy (le_of_lt hx')
        have : Real.arctan (y / x) ≤ Real.arctan 0 :=
          Real.arctan_strictMono.monotone hdiv
        rw [Real.arctan_zero] at this
        constructor <;> linarith
      · rw [if_neg hy]
        push_neg at hy
        have hdiv : 0 < y / x := div_pos_of_neg_of_neg hy hx'
        have : Real.arctan 0 < Real.arctan (y / x) := Real.arctan_strictMono hdiv
        rw [Real.arctan_zero] at this
        constructor <;> linarith
    · rw [if_neg hx']
      by_cases hy : 0 < y
      · rw [if_pos hy]
        constructor <;> linarith
      · rw [if_neg hy]
        by_cases hy' : y < 0
        · rw [if_pos hy']
          constructor <;> linarith
        · rw [if_neg hy']
          constructor <;> linarith

/-- Claim C8: `azimuth_to(a, b)` is `atan2(b.x - a.x, b.y - a.y)` in
degrees with negative results wrapped by adding 360; it always lies in
`[0, 360)`; and due east/north/south/west of the origin give 90, 0, 180
and 270 degrees. -/
theorem c8_azimuth_to :
    (∀ a b : Position ℝ,
        a.azimuth_to b =
          (if toDegrees (atan2 (b.x - a.x) (b.y - a.y)) < 0 then
            toDegrees (atan2 (b.x - a.x) (b.y - a.y)) + 360
          else toDegrees (atan2 (b.x - a.x) (b.y - a.y))) ∧
        0 ≤ a.azimuth_to b ∧ a.azimuth_to b < 360) ∧
    (⟨"A".data, 0, 0, 0⟩ : Position ℝ).azimuth_to ⟨"E".data, 0, 100, 0⟩ = 90 ∧
    (⟨"A".data, 0, 0, 0⟩ : Position ℝ).azimuth_to ⟨"N".data, 0, 0, 100⟩ = 0 ∧
    (⟨"A".data, 0, 0, 0⟩ : Position ℝ).azimuth_to ⟨"S".data, 0, 0, -100⟩ = 180 ∧
    (⟨"A".data, 0, 0, 0⟩ : Position ℝ).azimuth_to ⟨"W".data, 0, -100, 0⟩ = 270 := by
  have hpi := Real.pi_pos
  have hpine := Real.pi_ne_zero
  have hdeg : ∀ z : ℝ, -Real.pi < z → z ≤ Real.pi → -180 < toDegrees z ∧ toDegrees z ≤ 180 := by
    intro z h1 h2
    unfold toDegrees
    constructor
    · have h180 : (0 : ℝ) < 180 / Real.pi := by positivity
      have := mul_lt_mul_of_pos_right h1 h180
      calc (-180 : ℝ) = -Real.pi * (180 / Real.pi) := by field_simp; ring
      _ < z * (180 / Real.pi) := this
    · have h180 : (0 : ℝ) < 180 / Real.pi := by positivity
      have := mul_le_mul_of_nonneg_right h2 (le_of_lt h180)
      calc z * (180 / Real.pi) ≤ Real.pi * (180 / Real.pi) := this
      _ = 180 := by field_simp
  refine ⟨?_, ?_, ?_, ?_, ?_⟩
  · intro a b
    refine ⟨rfl, ?_, ?_⟩
    · unfold Position.azimuth_to
      simp only []
      obtain ⟨hlo, hhi⟩ := atan2_bounds (b.x - a.x) (b.y - a.y)
      obtain ⟨hdlo, hdhi⟩ := hdeg _ hlo hhi
      by_cases hneg : toDegrees (atan2 (b.x - a.x) (b.y - a.y)) < 0
      · rw [if_pos hneg]
        linarith
      · rw [if_neg hneg]
        linarith
    · unfold Position.azimuth_to
      simp only []
      obtain ⟨hlo, hhi⟩ := atan2_bounds (b.x - a.x) (b.y - a.y)
      obtain ⟨hdlo, hdhi⟩ := hdeg _ hlo hhi
      by_cases hneg : toDegrees (atan2 (b.x - a.x) (b.y - a.y)) < 0
      · rw [if_pos hneg]
        linarith
      · rw [if_neg hneg]
        linarith
  · -- east: dx = 100, dy = 0 : atan2 100 0 = pi/2, 90 degrees
    unfold Position.azimuth_to
    simp only []
    have hat : atan2 ((100 : ℝ) - 0) (0 - 0) = Real.pi / 2 := by
      unfold atan2
      norm_num
    rw [hat]
    have hdeg90 : toDegrees (Real.pi / 2) = 90 := by
      unfold toDegrees
      field_simp
      ring
    rw [hdeg90]
    rw [if_neg (by norm_num)]
  · -- north: dx = 0, dy = 100 : atan2 0 100 = arctan 0 = 0
    unfold Position.azimuth_to
    simp only []
    have hat : atan2 ((0 : ℝ) - 0) (100 - 0) = 0 := by
      unfold atan2
      norm_num
    rw [hat]
    have hdeg0 : toDegrees 0 = 0 := by
      unfold toDegrees
      ring
    rw [hdeg0]
    rw [if_neg (by norm_num)]
  · -- south: dx = 0, dy = -100 : atan2 0 (-100) = arctan 0 + pi = pi
    unfold Position.azimuth_to
    simp only []
    have hat : atan2 ((0 : ℝ) - 0) (-100 - 0) = Real.pi := by
      unfold atan2
      norm_num
    rw [hat]
    have hdeg180 : toDegrees Real.pi = 180 := by
      unfold toDegrees
      field_simp
    rw [hdeg180]
    rw [if_neg (by norm_num)]
  · -- west: dx = -100, dy = 0 : atan2 (-100) 0 = -(pi/2), wraps to 270
    unfold Position.azimuth_to
    simp only []
    have hat : atan2 ((-100 : ℝ) - 0) (0 - 0) = -(Real.pi / 2) := by
      unfold atan2
      norm_num
    rw [hat]
    have hdegm90 : toDegrees (-(Real.pi / 2)) = -90 := by
      unfold toDegrees
      field_simp
      ring
    rw [hdegm90]
    rw [if_pos (by norm_num)]
    norm_num


/-! ## Solution engine (`calculate_solution_with_dispersion`)

The `BTreeMap` inputs are modelled as partial functions on keys; the
`BTreeMap` outputs built by the kind/ring loops are modelled as
association lists in insertion order (all inserted keys are distinct, so
only iteration order differs from the sorted `BTreeMap`, which the claims
do not depend on). -/

/-- The ballistic tables keyed by `(AmmoKind, Ring)` (ring as `Nat`). -/
def BallisticsMap : Type := AmmoKind × Nat → Option (BallisticTable ℝ)

/-- The dispersion table keyed by `(AmmoKind, Ring)`. -/
def DispersionTable : Type := AmmoKind × Nat → Option ℝ

/-- The ring label `format!("{}R", r)`. -/
def ringKey (r : Nat) : List Char := Nat.toDigits 10 r ++ "R".data

/-- Association-list lookup, the `BTreeMap::get` of the output maps. -/
def assocFind {α : Type} (l : List (List Char × α)) (key : List Char) : Option α :=
  match l with
  | [] => none
  | (k, v) :: rest => if k = key then some v else assocFind rest key

/-- The selected-solution sub-record. -/
structure SelectedSolution where
  ammo_type : List Char
  elevations : List (List Char × Option ℝ)
  dispersions : List (List Char × Option ℝ)

/-- The aggregate firing solution. -/
structure FiringSolution where
  distance_m : ℝ
  azimuth_deg : ℝ
  elevation_diff_m : ℝ
  signed_elevation_diff_m : ℝ
  mortar_ammo : List Char
  target_type : List Char
  recommended_ammo : List Char
  solutions : List (List Char × List (List Char × Option ℝ))
  dispersions : List (List Char × List (List Char × Option ℝ))
  selected_solution : Option SelectedSolution

/-- Rust `calculate_solution_with_dispersion`: geometry, the full 4x5
elevation and dispersion matrices (`None` cells for missing data), and
the selected row for the mortar's loaded ammunition. -/
noncomputable def calculate_solution_with_dispersion
    (mortar : MortarPosition ℝ) (target : TargetPosition ℝ)
    (ballistics : BallisticsMap) (dispersion_table : DispersionTable) : FiringSolution :=
  let mortar_pos := mortar.as_position
  let target_pos := target.as_position
  let distance_m := mortar_pos.distance_to target_pos
  let azimuth_deg := mortar_pos.azimuth_to target_pos
  let elevation_diff_m := mortar_pos.elevation_difference target_pos
  let signed_elevation_diff_m := mortar.elevation - target.elevation
  let rings : List Nat := [0, 1, 2, 3, 4]
  let kinds := AmmoKind.all
  let solutions := kinds.map (fun kind =>
    (kind.as_str, rings.map (fun r =>
      (ringKey r, (ballistics (kind, r)).bind (fun t => t.elev_at distance_m)))))
  let dispersions := kinds.map (fun kind =>
    (kind.as_str, rings.map (fun r =>
      (ringKey r, (dispersion_table (kind, r)).map (fun base =>
        calculate_dispersion base mortar.elevation target.elevation)))))
  let selected_ammo := mortar.ammo_type
  let selected_elevations := rings.map (fun r =>
    (ringKey r, (ballistics (selected_ammo, r)).bind (fun t => t.elev_at distance_m)))
  let selected_dispersions := rings.map (fun r =>
    (ringKey r, (dispersion_table (selected_ammo, r)).map (fun base =>
      calculate_dispersion base mortar.elevation target.elevation)))
  let selected_solution := some (SelectedSolution.mk selected_ammo.as_str
    selected_elevations selected_dispersions)
  { distance_m := distance_m
    azimuth_deg := azimuth_deg
    elevation_diff_m := elevation_diff_m
    signed_elevation_diff_m := signed_elevation_diff_m
    mortar_ammo := mortar.ammo_type.as_str
    target_type := target.target_type.as_str
    recommended_ammo := target.target_type.suggested_ammo.as_str
    solutions := solutions
    dispersions := dispersions
    selected_solution := selected_solution }

/-- Rust `calculate_solution`: the with-dispersion engine applied to the empty
dispersion table. -/
noncomputable def calculate_solution
    (mortar : MortarPosition ℝ) (target : TargetPosition ℝ)
    (ballistics : BallisticsMap) : FiringSolution :=
  calculate_solution_with_dispersion mortar target ballistics (fun _ => none)

/-- Claim C2: for every input (including entirely empty maps), the
engine returns a fully shaped result: the solutions and dispersions
matrices contain exactly the 4 projectile kinds, each with all 5 ring
keys 0R-4R, and each cell is the `Option`-composed lookup (missing table,
out-of-bounds query, or missing dispersion base each give `none`), never
an error. -/
theorem c2_full_matrix_shape (mortar : MortarPosition ℝ) (target : TargetPosition ℝ)
    (ballistics : BallisticsMap) (dispersion_table : DispersionTable) :
    ((calculate_solution_with_dispersion mortar target ballistics
        dispersion_table).solutions.map Prod.fst =
      ["PRACTICE".data, "HE".data, "SMOKE".data, "FLARE".data]) ∧
    ((calculate_solution_with_dispersion mortar target ballistics
        dispersion_table).dispersions.map Prod.fst =
      ["PRACTICE".data, "HE".data, "SMOKE".data, "FLARE".data]) ∧
    (∀ row ∈ (calculate_solution_with_dispersion mortar target ballistics
        dispersion_table).solutions,
      row.2.map Prod.fst = ["0R".data, "1R".data, "2R".data, "3R".data, "4R".data]) ∧
    (∀ row ∈ (calculate_solution_with_dispersion mortar target ballistics
        dispersion_table).dispersions,
      row.2.map Prod.fst = ["0R".data, "1R".data, "2R".data, "3R".data, "4R".data]) ∧
    (∀ (kind : AmmoKind) (r : Fin 5),
      ((assocFind (calculate_solution_with_dispersion mortar target ballistics
          dispersion_table).solutions kind.as_str).bind
        (fun row => assocFind row (ringKey r.val)) =
        some ((ballistics (kind, r.val)).bind (fun t => t.elev_at
          (calculate_solution_with_dispersion mortar target ballistics
            dispersion_table).distance_m))) ∧
      ((assocFind (calculate_solution_with_dispersion mortar target ballistics
          dispersion_table).dispersions kind.as_str).bind
        (fun row => assocFind row (ringKey r.val)) =
        some ((dispersion_table (kind, r.val)).map (fun base =>
          calculate_dispersion base mortar.elevation target.elevation)))) := by
  refine ⟨rfl, rfl, ?_, ?_, ?_⟩
  · intro row hrow
    simp only [calculate_solution_with_dispersion, AmmoKind.all, List.map_cons, List.map_nil,
      List.mem_cons, List.not_mem_nil, or_false] at hrow
    rcases hrow with h | h | h | h <;> subst h <;> rfl
  · intro row hrow
    simp only [calculate_solution_with_dispersion, AmmoKind.all, List.map_cons, List.map_nil,
      List.mem_cons, List.not_mem_nil, or_false] at hrow
    rcases hrow with h | h | h | h <;> subst h <;> rfl
  · intro kind r
    cases kind <;> fin_cases r <;> exact ⟨rfl, rfl⟩



/-- Claim C10: `selected_solution` is always `some`; its `ammo_type` is
the loaded ammunition's canonical name, its maps carry exactly the five
ring keys, and each cell equals the corresponding cell of the full
matrix row for the loaded projectile. -/
theorem c10_selected_solution_row (mortar : MortarPosition ℝ) (target : TargetPosition ℝ)
    (ballistics : BallisticsMap) (dispersion_table : DispersionTable) :
    calculate_solution mortar target ballistics =
      calculate_solution_with_dispersion mortar target ballistics (fun _ => none) ∧
    ∃ sel, (calculate_solution_with_dispersion mortar target ballistics
        dispersion_table).selected_solution = some sel ∧
      sel.ammo_type = mortar.ammo_type.as_str ∧
      sel.elevations.map Prod.fst = ["0R".data, "1R".data, "2R".data, "3R".data, "4R".data] ∧
      sel.dispersions.map Prod.fst = ["0R".data, "1R".data, "2R".data, "3R".data, "4R".data] ∧
      (∀ r : Fin 5,
        assocFind sel.elevations (ringKey r.val) =
          (assocFind (calculate_solution_with_dispersion mortar target ballistics
              dispersion_table).solutions mortar.ammo_type.as_str).bind
            (fun row => assocFind row (ringKey r.val)) ∧
        assocFind sel.dispersions (ringKey r.val) =
          (assocFind (calculate_solution_with_dispersion mortar target ballistics
              dispersion_table).dispersions mortar.ammo_type.as_str).bind
            (fun row => assocFind row (ringKey r.val))) := by
  obtain ⟨mname, melev, mx, my, mammo⟩ := mortar
  refine ⟨rfl, _, rfl, rfl, rfl, rfl, ?_⟩
  intro r
  cases mammo <;> fin_cases r <;> exact ⟨rfl, rfl⟩


end Mortar
